import Mathlib

/-!
Verification development for the CrateDB output plugin
(plugins/outputs/cratedb/cratedb.go).

Strings are modelled as `List Char` (Go strings are byte sequences; all
literals involved are ASCII, where byte order and codepoint order agree).
Go's `interface\x7b\x7d` values reaching `escapeValue` are modelled by the
inductive `GoValue`; Go maps are modelled as association lists whose list
order plays the role of Go's (unspecified) map iteration order.
-/

/-- Go strings, modelled as lists of characters. -/
abbrev Str := List Char

/-- The single-quote character. -/
def squote : Char := Char.ofNat 39

/-- The double-quote character. -/
def dquote : Char := Char.ofNat 34

/-- The opening curly brace character. -/
def lbrace : Char := Char.ofNat 123

/-- The closing curly brace character. -/
def rbrace : Char := Char.ofNat 125

/-- The separator used by Go for joining column literals and object pairs. -/
def commaSp : Str := (", ").toList

/-- The separator between key and value in a CrateDB object literal. -/
def eqSep : Str := (" = ").toList

/-- The separator between row tuples: space, comma, newline
(the Go source joins rows with that exact three-character string). -/
def rowSep : Str := (" ,\n").toList

/-- Model of Go `strings.Join`. -/
def joinSep (sep : Str) : List Str → Str
  | [] => []
  | [x] => x
  | x :: y :: rest => x ++ sep ++ joinSep sep (y :: rest)

/-- Model of Go `strings.Replace(s, q, q+q, -1)` for a one-character
pattern `q`: every occurrence of `q` is doubled, all other characters are
kept unchanged. -/
def doubleQuoteChar (q : Char) : Str → Str
  | [] => []
  | c :: rest => if c = q then q :: q :: doubleQuoteChar q rest else c :: doubleQuoteChar q rest

/-- Model of the Go function `escapeString`: wraps `s` in the quote
character and doubles every occurrence of the quote inside `s`. -/
def escapeString (s : Str) (quote : Char) : Str :=
  quote :: doubleQuoteChar quote s ++ [quote]

/-- Specification-side inverse of the doubling escape: collapses each
doubled quote back to a single quote. -/
def collapseDoubled (q : Char) : Str → Str
  | [] => []
  | [a] => [a]
  | a :: b :: rest =>
    if a = q ∧ b = q then q :: collapseDoubled q rest
    else a :: collapseDoubled q (b :: rest)

/-- The decimal digit character for `n < 10`. -/
def digitChar (n : Nat) : Char := Char.ofNat (48 + n)

/-- Fuel-driven decimal rendering of a natural number (most significant
digit first). The fuel bounds the number of digits. -/
def natCharsAux : Nat → Nat → Str
  | 0, _ => []
  | fuel + 1, n =>
    if n < 10 then [digitChar n]
    else natCharsAux fuel (n / 10) ++ [digitChar (n % 10)]

/-- Decimal rendering of a natural number, as produced by Go `fmt.Sprint`
on an unsigned integer. -/
def natChars (n : Nat) : Str := natCharsAux (n + 1) n

/-- Decimal rendering of an integer, as produced by Go `fmt.Sprint` on a
signed integer: a minus sign followed by the digits for negative values. -/
def intChars (n : Int) : Str :=
  if n < 0 then '-' :: natChars (-n).toNat else natChars n.toNat

/-- Model of the Go conversion `int64(u)` applied to a `uint64` value:
the bit-pattern reinterpretation into two's-complement signed 64-bit. -/
def u64ToI64 (n : Nat) : Int :=
  if n < 2 ^ 63 then (n : Int) else (n : Int) - 2 ^ 64

/-- Left-pads `s` with copies of `c` up to width `w`. -/
def leftPad (c : Char) (w : Nat) (s : Str) : Str :=
  List.replicate (w - s.length) c ++ s

/-- Two-digit zero-padded decimal field of Go's time layout. -/
def pad2 (n : Nat) : Str := leftPad (digitChar 0) 2 (natChars n)

/-- Civil date from a day count relative to 1970-01-01 (the standard
era-based algorithm used to model Go's date computation). Returns
(year, month, day). -/
def civilFromDays (z0 : Int) : Int × Nat × Nat :=
  let z := z0 + 719468
  let era := Int.fdiv z 146097
  let doe : Nat := (z - era * 146097).toNat
  let yoe : Nat := (doe - doe / 1460 + doe / 36524 - doe / 146096) / 365
  let doy : Nat := doe - (365 * yoe + yoe / 4 - yoe / 100)
  let mp : Nat := (5 * doy + 2) / 153
  let d : Nat := doy - (153 * mp + 2) / 5 + 1
  let m : Nat := if mp < 10 then mp + 3 else mp - 9
  let y : Int := (yoe : Int) + era * 400 + (if m ≤ 2 then 1 else 0)
  (y, m, d)

/-- The fractional-second field of Go's layout `.999`: millisecond
precision, trailing zeros removed, omitted entirely when zero. -/
def fracChars (ms : Nat) : Str :=
  if ms = 0 then []
  else if ms % 10 ≠ 0 then '.' :: leftPad (digitChar 0) 3 (natChars ms)
  else if ms % 100 ≠ 0 then '.' :: leftPad (digitChar 0) 2 (natChars (ms / 10))
  else '.' :: natChars (ms / 100)

/-- The zone field of Go's layout `-0700`: sign, two-digit hours,
two-digit minutes, no colon. `off` is the zone offset in minutes. -/
def offsetChars (off : Int) : Str :=
  (if off < 0 then '-' else '+')
    :: (pad2 (off.natAbs / 60) ++ pad2 (off.natAbs % 60))

/-- The year field of Go's layout `2006`: at least four digits,
zero-padded, sign first for negative years. -/
def yearChars (y : Int) : Str :=
  if y < 0 then '-' :: leftPad (digitChar 0) 4 (natChars (-y).toNat)
  else leftPad (digitChar 0) 4 (natChars y.toNat)

/-- Model of a Go `time.Time` value: an absolute instant (nanoseconds
since the Unix epoch) together with its location, modelled as a fixed
zone offset in minutes east of UTC. -/
structure GoTime where
  nanos : Int
  offsetMin : Int
deriving DecidableEq

/-- Model of Go `t.Format("2006-01-02T15:04:05.999-0700")`: broken-down
local time rendered as date, `T`, clock, optional millisecond fraction,
and signed zone offset without a colon. -/
def formatGoTime (t : GoTime) : Str :=
  let localNanos := t.nanos + t.offsetMin * 60 * 1000000000
  let secs := Int.fdiv localNanos 1000000000
  let nanoFrac := (Int.fmod localNanos 1000000000).toNat
  let sod := (Int.fmod secs 86400).toNat
  let ymd := civilFromDays (Int.fdiv secs 86400)
  yearChars ymd.1 ++ '-' :: pad2 ymd.2.1 ++ '-' :: pad2 ymd.2.2 ++
    'T' :: pad2 (sod / 3600) ++ ':' :: pad2 (sod % 3600 / 60) ++ ':' :: pad2 (sod % 60) ++
    fracChars (nanoFrac / 1000000) ++ offsetChars t.offsetMin

/-- The two Go floating-point widths handled by `escapeValue`'s type
switch (`float32`, `float64`). -/
inductive FWidth where
  | f32
  | f64
deriving DecidableEq

/-- Model of a Go floating-point value: a finite value is the exact
number `(-1)^neg * mant * 2^exp2` (for a well-formed binary32/binary64
value, `mant` is below two to the significand width and `exp2` is at
least the minimum exponent, with subnormals pinned to it; the formatter
below is total and needs no side condition), plus the special values. -/
inductive GoFloat where
  | finite (neg : Bool) (mant : Nat) (exp2 : Int)
  | inf (neg : Bool)
  | nan
deriving DecidableEq

/-- The significand width in bits of each floating-point width. -/
def fmbits : FWidth → Nat
  | .f32 => 24
  | .f64 => 53

/-- The minimum binary exponent (that of the subnormals) of each
floating-point width. -/
def fminExp : FWidth → Int
  | .f32 => -149
  | .f64 => -1074

/-- Compares the exact rationals `a * 2^e` and `b * 10^f` by clearing
the (possibly negative) exponents into big integers. -/
def cmpScaled (a : Nat) (e : Int) (b : Nat) (f : Int) : Ordering :=
  compare (a * 2 ^ (e - min e 0).toNat * 10 ^ (0 - min f 0).toNat)
    (b * 10 ^ (f - min f 0).toNat * 2 ^ (0 - min e 0).toNat)

/-- The floor of the exact rational `m * 2^e * 10^g`. -/
def floorScaled (m : Nat) (e g : Int) : Nat :=
  m * 2 ^ (e - min e 0).toNat * 10 ^ (g - min g 0).toNat
    / (2 ^ (0 - min e 0).toNat * 10 ^ (0 - min g 0).toNat)

/-- Fuel-driven base-two logarithm (floor). -/
def log2Aux : Nat → Nat → Nat
  | 0, _ => 0
  | fuel + 1, n => if 2 ≤ n then log2Aux fuel (n / 2) + 1 else 0

/-- The floor of the base-two logarithm of `n`. -/
def natLog2 (n : Nat) : Nat := log2Aux n n

/-- Scans upward for the smallest `dp` with `m * 2^e < 10^dp`. -/
def findDpAux (m : Nat) (e : Int) : Nat → Int → Int
  | 0, dp => dp
  | fuel + 1, dp =>
    if cmpScaled m e 1 dp = Ordering.lt then dp
    else findDpAux m e fuel (dp + 1)

/-- The decimal position `dp` of the positive value `v = m * 2^e`
(`m >= 1`): the unique integer with `10^(dp-1) <= v < 10^dp`. A binary
logarithm estimate (using an under-approximation of log10 of 2) starts a
short upward scan from at most the true value. -/
def findDp (m : Nat) (e : Int) : Int :=
  let bl : Int := (natLog2 m : Int) + 1 + e
  findDpAux m e 8 (Int.fdiv ((bl - 1) * 301029) 1000000 - 1)

/-- Normalizes the rounded-up candidate: if rounding up overflowed to a
power of ten, the digit string becomes the single digit one and the
decimal point moves one place right. -/
def finishUp (d1 : Nat) (k : Nat) (dp : Int) : Nat × Int :=
  if d1 = 10 ^ k then (1, dp + 1) else (d1, dp)

/-- Whether a candidate above the lower midpoint reads back (strictly
above it, or on it when the bounds are inclusive). -/
def okLow (incl : Bool) : Ordering → Bool
  | .lt => true
  | .eq => incl
  | .gt => false

/-- Whether a candidate below the upper midpoint reads back (strictly
below it, or on it when the bounds are inclusive). -/
def okHigh (incl : Bool) : Ordering → Bool
  | .gt => true
  | .eq => incl
  | .lt => false

/-- One step per digit count `k` of the shortest-decimal search for the
positive value `v = m * 2^e` of a float with significand width `mbits`
and minimum exponent `minE` (Go `strconv`'s shortest conversion, as used
by `FormatFloat` with precision -1): a `k`-digit decimal `D * 10^(dp-k)`
reads back as `v` exactly when it lies between the midpoints to the
neighboring representable values (bounds inclusive when `mant` is even,
since ties round to even); the truncated candidate and its increment are
tested, and when both read back the one nearer to `v` wins, an exact tie
keeping the even digit string. The fuel never runs out for well-formed
floats, since seventeen digits always read back uniquely. -/
def shortestAux (mbits : Nat) (minE : Int) (m : Nat) (e : Int) (dp : Int) :
    Nat → Nat → Nat × Int
  | 0, k => (floorScaled m e ((k : Int) - dp), dp)
  | fuel + 1, k =>
    let F := dp - (k : Int)
    let d0 := floorScaled m e ((k : Int) - dp)
    let d1 := d0 + 1
    let lo := if m = 2 ^ (mbits - 1) ∧ minE < e then (4 * m - 1, e - 2)
      else (2 * m - 1, e - 1)
    let incl := m % 2 == 0
    match okLow incl (cmpScaled lo.1 lo.2 d0 F),
        okHigh incl (cmpScaled (2 * m + 1) (e - 1) d1 F) with
    | true, true =>
      match cmpScaled (2 * m) e (d0 + d1) F with
      | .lt => (d0, dp)
      | .gt => finishUp d1 k dp
      | .eq => if d0 % 2 = 0 then (d0, dp) else finishUp d1 k dp
    | true, false => (d0, dp)
    | false, true => finishUp d1 k dp
    | false, false => shortestAux mbits minE m e dp fuel (k + 1)

/-- The shortest decimal digits of the positive float value `m * 2^e`:
returns the digit string (as a number) and the decimal point position. -/
def shortestDecimal (mbits : Nat) (minE : Int) (m : Nat) (e : Int) : Nat × Int :=
  let dp := findDp m e
  shortestAux mbits minE m e dp 17 1

/-- Go `strconv`'s `%e` assembly: first digit, a point and the remaining
digits when there are any, then `e`, the exponent sign and the exponent
with at least two digits. -/
def fmtE (digits : Str) (exp : Int) : Str :=
  digits.take 1 ++ (if digits.length ≤ 1 then [] else '.' :: digits.drop 1)
    ++ 'e' :: (if exp < 0 then '-' else '+')
    :: leftPad (digitChar 0) 2 (natChars exp.natAbs)

/-- Go `strconv`'s `%f` assembly for digits with decimal position `dp`:
a leading zero and zeros before the digits when `dp` is not positive,
trailing zeros up to the point when all digits are integral, and a point
inside the digits otherwise. -/
def fmtF (digits : Str) (dp : Int) : Str :=
  if dp ≤ 0 then digitChar 0 :: '.' :: (List.replicate (0 - dp).toNat (digitChar 0) ++ digits)
  else if (digits.length : Int) ≤ dp then
    digits ++ List.replicate (dp - (digits.length : Int)).toNat (digitChar 0)
  else digits.take dp.toNat ++ '.' :: digits.drop dp.toNat

/-- Go's `%g` presentation choice for the shortest conversion: `%e` when
the decimal exponent is below minus four or at least six (so for example
one million renders as `1e+06`), `%f` otherwise. -/
def gFmt (d : Nat) (dp : Int) : Str :=
  if dp - 1 < -4 ∨ 6 ≤ dp - 1 then fmtE (natChars d) (dp - 1)
  else fmtF (natChars d) dp

/-- Model of Go `fmt.Sprint` on a `float32` or `float64` value, which is
`strconv.FormatFloat(v, 'g', -1, bitSize)`: `NaN`, signed `Inf`, signed
zero, and otherwise the shortest round-tripping decimal in `%g`
presentation, with a minus sign first for negative values. -/
def goFloatChars (w : FWidth) (f : GoFloat) : Str :=
  match f with
  | .nan => ("NaN").toList
  | .inf neg => if neg then ("-Inf").toList else ("+Inf").toList
  | .finite neg m e =>
    if m = 0 then (if neg then '-' :: [digitChar 0] else [digitChar 0])
    else
      let p := shortestDecimal (fmbits w) (fminExp w) m e
      if neg then '-' :: gFmt p.1 p.2 else gFmt p.1 p.2

/-- The Go unsigned integer types (`uint`, `uint32`, `uint64`), which the
type switch in `escapeValue` deliberately does not handle. -/
inductive UWidth where
  | u
  | u32
  | u64
deriving DecidableEq

/-- The `%T` type tag Go prints for each unsigned integer type. -/
def uintTag : UWidth → Str
  | .u => ("uint").toList
  | .u32 => ("uint32").toList
  | .u64 => ("uint64").toList

/-- Encoding errors. `escapeValue`'s default case returns an error built
with the offending value's `%T` type tag; the tag is the payload. -/
inductive EncError where
  | unsupportedType (tag : Str)
deriving DecidableEq

mutual
/-- A Go value reaching `escapeValue`'s type switch: a string, a signed
integer (`int`, `int32`, `int64`, all rendered identically), an unsigned
integer, a floating-point number (`float32`, `float64`), a `time.Time`,
a `map[string]string`, a nested `map[string]interface` object, or any
other type carrying its `%T` tag. -/
inductive GoValue where
  | str (s : Str)
  | int (n : Int)
  | uint (w : UWidth) (n : Nat)
  | float (w : FWidth) (f : GoFloat)
  | time (t : GoTime)
  | strMap (m : List (Str × Str))
  | objMap (entries : Entries)
  | other (tag : Str)

/-- Association list of string keys to Go values, modelling a Go
`map[string]interface` object (list order = map iteration order). -/
inductive Entries where
  | nil
  | cons (key : Str) (value : GoValue) (rest : Entries)
end

/-- The entries of an object as a plain list of pairs. -/
def Entries.toList : Entries → List (Str × GoValue)
  | .nil => []
  | .cons k v rest => (k, v) :: Entries.toList rest

/-- Model of Go map indexing `m[k]` on an object: the value of the first
entry with key `k` (Go maps have unique keys). -/
def entriesLookup : Entries → Str → GoValue
  | .nil, _ => .str []
  | .cons k2 v rest, k => if k2 = k then v else entriesLookup rest k

/-- Model of the Go function `convertMap`: copies a `map[string]string`
into a `map[string]interface` object with string values. -/
def convertMap : List (Str × Str) → Entries
  | [] => .nil
  | kv :: rest => .cons kv.1 (.str kv.2) (convertMap rest)

/-- The lexicographic byte order that Go's `sort.Strings` sorts by. -/
def strLe : Str → Str → Bool
  | [], _ => true
  | _ :: _, [] => false
  | a :: as, b :: bs => if a < b then true else if b < a then false else strLe as bs

/-- `strLe` as a relation. -/
def strLeP : Str → Str → Prop := fun a b => strLe a b = true

instance : DecidableRel strLeP :=
  fun a b => inferInstanceAs (Decidable (strLe a b = true))

/-- Model of Go `sort.Strings`: sorting in ascending lexicographic order.
Go's sort is unstable, but on values compared by their own content any
correct sort produces the same list, so insertion sort is a faithful
model. -/
def sortStrings (l : List Str) : List Str := List.insertionSort strLeP l

/-- Looks up the encoded result for key `k` among precomputed per-entry
results; first match wins, matching Go map indexing on unique keys. -/
def lookupRes (em : List (Str × Except EncError Str)) (k : Str) : Except EncError Str :=
  match em with
  | [] => .ok []
  | kv :: rest => if kv.1 = k then kv.2 else lookupRes rest k

/-- The pair-building loop of Go's `escapeObject`: walks the sorted keys,
aborts with the first error, and otherwise renders
`escapeString(k, dquote) + " = " + value` for each key. -/
def collectPairs (em : List (Str × Except EncError Str)) : List Str → Except EncError (List Str)
  | [] => .ok []
  | k :: ks =>
    match lookupRes em k with
    | .error e => .error e
    | .ok v =>
      match collectPairs em ks with
      | .error e => .error e
      | .ok rest => .ok ((escapeString k dquote ++ eqSep ++ v) :: rest)

/-- The assembly half of Go's `escapeObject`: sorts the keys, builds the
`key = value` pairs in sorted order (failing on the first encoding
error), and joins them with a comma inside braces. `em` pairs each key
with the (pure) encoding result of its value; walking the sorted keys
over these precomputed results returns exactly what Go's loop of fresh
`escapeValue` calls returns, because `escapeValue` is pure. -/
def assembleObject (em : List (Str × Except EncError Str)) : Except EncError Str :=
  match collectPairs em (sortStrings (em.map Prod.fst)) with
  | .error e => .error e
  | .ok pairs => .ok (lbrace :: joinSep commaSp pairs ++ [rbrace])

/-- The encoded entries of a `map[string]string` after Go's
`convertMap`: every value is a string, so its encoding is
`escapeString v squote` (what `escapeValue` returns on strings). -/
def strMapEntries (m : List (Str × Str)) : List (Str × Except EncError Str) :=
  m.map (fun kv => (kv.1, Except.ok (escapeString kv.2 squote)))

mutual
/-- Model of the Go function `escapeValue` (the type switch): strings are
single-quote escaped; `int`, `int32`, `int64`, `float32`, `float64` are
rendered with `fmt.Sprint` (plain decimal for the integer cases, the
shortest `%g` conversion for the float cases; unsigned integer types are
deliberately not handled by the Go switch and fall to the error
default); `time.Time` is formatted with the CrateDB layout and then
recursively encoded as a string (inlined here: the recursive call lands
in the string case); `map[string]string` goes through `convertMap` and
`escapeObject`; objects go through `escapeObject`; anything else is an
`unexpected type` error carrying the `%T` tag. -/
def escapeValue : GoValue → Except EncError Str
  | .str s => .ok (escapeString s squote)
  | .int n => .ok (intChars n)
  | .uint w _ => .error (.unsupportedType (uintTag w))
  | .float w f => .ok (goFloatChars w f)
  | .time t => .ok (escapeString (formatGoTime t) squote)
  | .strMap m => assembleObject (strMapEntries m)
  | .objMap e => assembleObject (encodeEntries e)
  | .other tag => .error (.unsupportedType tag)

/-- Per-entry encoding results of an object, in entry order. -/
def encodeEntries : Entries → List (Str × Except EncError Str)
  | .nil => []
  | .cons k v rest => (k, escapeValue v) :: encodeEntries rest
end

/-- Model of the Go function `escapeObject` applied to an object. -/
def escapeObject (e : Entries) : Except EncError Str :=
  assembleObject (encodeEntries e)

/-- Model of a telegraf metric as consumed by `insertSQL`: the uint64
identity hash, the instant (nanoseconds since epoch), the name, the tag
map and the field map. -/
structure Metric where
  hashID : Nat
  time : Int
  name : Str
  tags : List (Str × Str)
  fields : Entries

/-- The five column values `insertSQL` extracts per metric, in order:
`int64(m.HashID())`, `m.Time().In(loc)`, `m.Name()`, `m.Tags()`,
`m.Fields()`. `loc` is the zone offset (minutes) of the location passed
to `insertSQL`. -/
def metricCols (loc : Int) (m : Metric) : List GoValue :=
  [GoValue.int (u64ToI64 m.hashID),
   GoValue.time ⟨m.time, loc⟩,
   GoValue.str m.name,
   GoValue.strMap m.tags,
   GoValue.objMap m.fields]

/-- The inner loop of `insertSQL`: escapes each column, aborting with the
first error. -/
def escapeCols : List GoValue → Except EncError (List Str)
  | [] => .ok []
  | c :: cs =>
    match escapeValue c with
    | .error e => .error e
    | .ok s =>
      match escapeCols cs with
      | .error e => .error e
      | .ok rest => .ok (s :: rest)

/-- The outer loop of `insertSQL`: builds one parenthesized row tuple per
metric (columns joined by a comma and space), aborting with the first
error. -/
def metricRows (loc : Int) : List Metric → Except EncError (List Str)
  | [] => .ok []
  | m :: ms =>
    match escapeCols (metricCols loc m) with
    | .error e => .error e
    | .ok cs =>
      match metricRows loc ms with
      | .error e => .error e
      | .ok rest => .ok (('(' :: joinSep commaSp cs ++ [')']) :: rest)

/-- Model of the Go function `insertSQL`: the INSERT statement text, with
the table identifier inserted verbatim, the fixed quoted column list, a
newline before and after `VALUES`, the row tuples joined by `rowSep`
(space, comma, newline) and a trailing semicolon. Go returns the pair
`("", err)` on failure; the `Except` error models that (no statement
text is produced). -/
def insertSQL (table : Str) (metrics : List Metric) (loc : Int) : Except EncError Str :=
  match metricRows loc metrics with
  | .error e => .error e
  | .ok rows =>
    .ok (("INSERT INTO ").toList ++ table
      ++ (" (\"hash_id\", \"timestamp\", \"name\", \"tags\", \"fields\")\nVALUES\n").toList
      ++ joinSep rowSep rows ++ (";").toList)

/-- Doubling a quote never produces the empty string from a nonempty one. -/
theorem doubleQuoteChar_eq_nil {q : Char} {s : Str} :
    doubleQuoteChar q s = [] ↔ s = [] := by
  cases s with
  | nil => simp [doubleQuoteChar]
  | cons c rest =>
    simp only [doubleQuoteChar]
    split <;> simp

/-- The doubling escape written pointwise: each quote becomes two quotes,
every other character is kept unchanged in place. -/
theorem doubleQuoteChar_eq_bind (q : Char) (s : Str) :
    doubleQuoteChar q s = s.flatMap (fun c => if c = q then [q, q] else [c]) := by
  induction s with
  | nil => rfl
  | cons c rest ih =>
    simp only [doubleQuoteChar, List.flatMap_cons]
    split <;> simp [ih]

/-- Collapsing doubled quotes undoes the doubling escape. -/
theorem collapseDoubled_doubleQuoteChar (q : Char) (s : Str) :
    collapseDoubled q (doubleQuoteChar q s) = s := by
  induction s with
  | nil => rfl
  | cons c rest ih =>
    by_cases hc : c = q
    · subst hc
      simp only [doubleQuoteChar, if_pos rfl]
      cases hdq : doubleQuoteChar c rest with
      | nil => simp_all [collapseDoubled, doubleQuoteChar_eq_nil.mp hdq]
      | cons b t => simp_all [collapseDoubled]
    · simp only [doubleQuoteChar, if_neg hc]
      cases hdq : doubleQuoteChar q rest with
      | nil => simp_all [collapseDoubled, doubleQuoteChar_eq_nil.mp hdq]
      | cons b t =>
        rw [hdq] at ih
        simp [collapseDoubled, hc, ih]

/-- Strings without the quote character pass through the doubling escape
unchanged. -/
theorem doubleQuoteChar_eq_self {q : Char} {s : Str} (h : ∀ c ∈ s, c ≠ q) :
    doubleQuoteChar q s = s := by
  induction s with
  | nil => rfl
  | cons c rest ih =>
    have hc : c ≠ q := h c (by simp)
    simp [doubleQuoteChar, hc, ih fun d hd => h d (by simp [hd])]

/-- Escaping a quote-free string just wraps it in quotes. -/
theorem escapeString_of_no_quote {q : Char} {s : Str} (h : ∀ c ∈ s, c ≠ q) :
    escapeString s q = q :: s ++ [q] := by
  simp [escapeString, doubleQuoteChar_eq_self h]

/-- The decimal digit characters are digits. -/
theorem isDigit_digitChar {n : Nat} (h : n < 10) : (digitChar n).isDigit = true := by
  interval_cases n <;> decide

/-- Every character produced by the fueled decimal renderer is a digit. -/
theorem natCharsAux_digits :
    ∀ fuel n c, c ∈ natCharsAux fuel n → c.isDigit = true := by
  intro fuel
  induction fuel with
  | zero => intro n c h; simp [natCharsAux] at h
  | succ f ih =>
    intro n c h
    simp only [natCharsAux] at h
    split at h
    · simp only [List.mem_singleton] at h
      exact h ▸ isDigit_digitChar (by omega)
    · rcases List.mem_append.mp h with h2 | h2
      · exact ih _ _ h2
      · simp only [List.mem_singleton] at h2
        exact h2 ▸ isDigit_digitChar (Nat.mod_lt _ (by omega))

/-- Every character of a rendered natural number is a digit. -/
theorem natChars_digits {n : Nat} {c : Char} (h : c ∈ natChars n) : c.isDigit = true :=
  natCharsAux_digits _ _ _ h

/-- Rendering a natural number always produces at least one digit. -/
theorem natChars_ne_nil (n : Nat) : natChars n ≠ [] := by
  simp only [natChars, natCharsAux]
  split <;> simp

/-- Zero-padding keeps every character a digit. -/
theorem leftPad_digits {w : Nat} {s : Str} (hs : ∀ c ∈ s, c.isDigit = true) :
    ∀ c ∈ leftPad (digitChar 0) w s, c.isDigit = true := by
  intro c hc
  rcases List.mem_append.mp hc with h | h
  · rw [List.eq_of_mem_replicate h]; decide
  · exact hs c h

/-- Every character of a two-digit padded field is a digit. -/
theorem pad2_digits {n : Nat} : ∀ c ∈ pad2 n, c.isDigit = true :=
  leftPad_digits fun _ h => natChars_digits h

/-- The single quote is not a digit character. -/
theorem squote_not_mem_natChars (n : Nat) : squote ∉ natChars n := by
  intro h
  have := natChars_digits h
  simp [squote, Char.isDigit] at this

/-- The single quote does not occur in padded numeric fields. -/
theorem squote_not_mem_pad2 (n : Nat) : squote ∉ pad2 n := by
  intro h
  have := pad2_digits squote h
  simp [squote, Char.isDigit] at this

/-- The single quote does not occur in the year field. -/
theorem squote_not_mem_yearChars (y : Int) : squote ∉ yearChars y := by
  intro h
  simp only [yearChars] at h
  have hdig : ∀ c ∈ leftPad (digitChar 0) 4 (natChars y.toNat), c.isDigit = true :=
    leftPad_digits fun _ hc => natChars_digits hc
  have hdig2 : ∀ c ∈ leftPad (digitChar 0) 4 (natChars (-y).toNat), c.isDigit = true :=
    leftPad_digits fun _ hc => natChars_digits hc
  split at h
  · rcases List.mem_cons.mp h with h2 | h2
    · simp [squote] at h2
    · have := hdig2 _ h2
      simp [squote, Char.isDigit] at this
  · have := hdig _ h
    simp [squote, Char.isDigit] at this

/-- The single quote does not occur in the fractional-second field. -/
theorem squote_not_mem_fracChars (n : Nat) : squote ∉ fracChars n := by
  intro h
  simp only [fracChars] at h
  have hdot : squote ≠ '.' := by decide
  split at h
  · simp at h
  · split at h
    · rcases List.mem_cons.mp h with h2 | h2
      · exact hdot h2
      · have := leftPad_digits (fun _ hc => natChars_digits hc) _ h2
        simp [squote, Char.isDigit] at this
    · split at h <;>
      · rcases List.mem_cons.mp h with h2 | h2
        · exact hdot h2
        · first
          | exact absurd (leftPad_digits (fun _ hc => natChars_digits hc) _ h2) (by decide)
          | exact squote_not_mem_natChars _ h2

/-- The single quote does not occur in the zone-offset field. -/
theorem squote_not_mem_offsetChars (off : Int) : squote ∉ offsetChars off := by
  intro h
  simp only [offsetChars] at h
  rcases lt_or_ge off 0 with hoff | hoff
  · rw [if_pos hoff] at h
    rcases List.mem_cons.mp h with h2 | h2
    · simp [squote] at h2
    · rcases List.mem_append.mp h2 with h3 | h3 <;> exact squote_not_mem_pad2 _ h3
  · rw [if_neg (not_lt.mpr hoff)] at h
    rcases List.mem_cons.mp h with h2 | h2
    · simp [squote] at h2
    · rcases List.mem_append.mp h2 with h3 | h3 <;> exact squote_not_mem_pad2 _ h3

/-- The formatted timestamp text contains no single quote, so encoding it
as a string only wraps it in quotes. -/
theorem squote_not_mem_formatGoTime (t : GoTime) : squote ∉ formatGoTime t := by
  intro h
  unfold formatGoTime at h
  have h1 : ¬(squote = '-') := by decide
  have h2 : ¬(squote = 'T') := by decide
  have h3 : ¬(squote = ':') := by decide
  simp [List.mem_append, List.mem_cons, h1, h2, h3,
    squote_not_mem_yearChars, squote_not_mem_pad2, squote_not_mem_fracChars,
    squote_not_mem_offsetChars] at h

/-- One-step characterization of the lexicographic order on strings. -/
theorem strLe_cons {a b : Char} {as bs : Str} :
    strLe (a :: as) (b :: bs) = true ↔ a < b ∨ (a = b ∧ strLe as bs = true) := by
  simp only [strLe]
  split_ifs with h1 h2
  · simp [h1]
  · constructor
    · intro h; cases h
    · intro h
      rcases h with h | ⟨rfl, _⟩
      · exact absurd h h1
      · exact absurd h2 (lt_irrefl _)
  · have hab : a = b := le_antisymm (not_lt.mp h2) (not_lt.mp h1)
    simp [hab, lt_irrefl]

/-- The lexicographic order is total. -/
theorem strLe_total : ∀ a b : Str, strLe a b = true ∨ strLe b a = true := by
  intro a
  induction a with
  | nil => intro b; left; rfl
  | cons x xs ih =>
    intro b
    cases b with
    | nil => right; rfl
    | cons y ys =>
      rcases lt_trichotomy x y with h | h | h
      · exact Or.inl (strLe_cons.mpr (Or.inl h))
      · subst h
        rcases ih ys with h2 | h2
        · exact Or.inl (strLe_cons.mpr (Or.inr ⟨rfl, h2⟩))
        · exact Or.inr (strLe_cons.mpr (Or.inr ⟨rfl, h2⟩))
      · exact Or.inr (strLe_cons.mpr (Or.inl h))

/-- The lexicographic order is transitive. -/
theorem strLe_trans :
    ∀ {a b c : Str}, strLe a b = true → strLe b c = true → strLe a c = true := by
  intro a
  induction a with
  | nil => intro b c _ _; rfl
  | cons x xs ih =>
    intro b c hab hbc
    cases b with
    | nil => simp [strLe] at hab
    | cons y ys =>
      cases c with
      | nil => simp [strLe] at hbc
      | cons z zs =>
        rcases strLe_cons.mp hab with h1 | ⟨rfl, h1⟩ <;>
          rcases strLe_cons.mp hbc with h2 | ⟨rfl, h2⟩
        · exact strLe_cons.mpr (Or.inl (lt_trans h1 h2))
        · exact strLe_cons.mpr (Or.inl h1)
        · exact strLe_cons.mpr (Or.inl h2)
        · exact strLe_cons.mpr (Or.inr ⟨rfl, ih h1 h2⟩)

/-- The lexicographic order is antisymmetric. -/
theorem strLe_antisymm :
    ∀ {a b : Str}, strLe a b = true → strLe b a = true → a = b := by
  intro a
  induction a with
  | nil =>
    intro b _ hba
    cases b with
    | nil => rfl
    | cons y ys => simp [strLe] at hba
  | cons x xs ih =>
    intro b hab hba
    cases b with
    | nil => simp [strLe] at hab
    | cons y ys =>
      rcases strLe_cons.mp hab with h1 | ⟨rfl, h1⟩ <;>
        rcases strLe_cons.mp hba with h2 | ⟨he, h2⟩
      · exact absurd h2 (lt_asymm h1)
      · exact absurd (he ▸ h1) (lt_irrefl _)
      · exact absurd h2 (lt_irrefl _)
      · rw [ih h1 h2]

instance : IsTotal Str strLeP := ⟨strLe_total⟩

instance : IsTrans Str strLeP := ⟨fun _ _ _ => strLe_trans⟩

instance : IsAntisymm Str strLeP := ⟨fun _ _ => strLe_antisymm⟩

/-- Sorting is a permutation of the input key list. -/
theorem sortStrings_perm (l : List Str) : (sortStrings l).Perm l :=
  List.perm_insertionSort _ l

/-- The sorted key list is sorted in ascending lexicographic order. -/
theorem sortStrings_sorted (l : List Str) : List.Sorted strLeP (sortStrings l) :=
  List.sorted_insertionSort _ l

/-- Key lists with the same content sort to the same list: the output of
the sort is independent of the input's iteration order. -/
theorem sortStrings_eq_of_perm {l1 l2 : List Str} (h : l1.Perm l2) :
    sortStrings l1 = sortStrings l2 :=
  List.eq_of_perm_of_sorted
    ((sortStrings_perm l1).trans (h.trans (sortStrings_perm l2).symm))
    (sortStrings_sorted l1) (sortStrings_sorted l2)

/-- The per-entry encoding results, written as a map over the entry list. -/
theorem encodeEntries_eq_map :
    (e : Entries) → encodeEntries e = e.toList.map (fun p => (p.1, escapeValue p.2))
  | .nil => rfl
  | .cons k v rest => by
    simp [encodeEntries, Entries.toList, encodeEntries_eq_map rest]

/-- The keys of the per-entry encoding results are the object's keys. -/
theorem keys_encodeEntries (e : Entries) :
    (encodeEntries e).map Prod.fst = e.toList.map Prod.fst := by
  rw [encodeEntries_eq_map, List.map_map]
  rfl

/-- On maps with unique keys, looking up an encoded result does not
depend on the entry order. -/
theorem lookupRes_perm (k : Str) :
    ∀ {em1 em2 : List (Str × Except EncError Str)}, em1.Perm em2 →
      (em1.map Prod.fst).Nodup → lookupRes em1 k = lookupRes em2 k := by
  intro em1 em2 h
  induction h with
  | nil => intro _; rfl
  | cons p h ih =>
    intro hnd
    simp only [List.map_cons, List.nodup_cons] at hnd
    simp only [lookupRes]
    split
    · rfl
    · exact ih hnd.2
  | swap p q l =>
    intro hnd
    simp only [List.map_cons, List.nodup_cons, List.mem_cons] at hnd
    have hpq : q.1 ≠ p.1 := fun hh => hnd.1 (Or.inl hh)
    by_cases hp : p.1 = k <;> by_cases hq : q.1 = k <;>
      simp [lookupRes, hp, hq]
    exact absurd (hq.trans hp.symm) hpq
  | trans h1 h2 ih1 ih2 =>
    intro hnd
    exact (ih1 hnd).trans (ih2 (((h1.map Prod.fst).nodup_iff).mp hnd))

/-- The pair-building loop only depends on the lookup function it sees. -/
theorem collectPairs_congr {em1 em2 : List (Str × Except EncError Str)}
    (h : ∀ k, lookupRes em1 k = lookupRes em2 k) :
    ∀ ks, collectPairs em1 ks = collectPairs em2 ks := by
  intro ks
  induction ks with
  | nil => rfl
  | cons k ks ih => simp only [collectPairs, h k, ih]

/-- For a key that occurs in the object, looking up its precomputed
encoding result returns the encoding of the looked-up value. -/
theorem lookupRes_encodeEntries :
    (e : Entries) → (k : Str) → k ∈ e.toList.map Prod.fst →
      lookupRes (encodeEntries e) k = escapeValue (entriesLookup e k)
  | .nil, k, hk => by simp [Entries.toList] at hk
  | .cons k2 v rest, k, hk => by
    simp only [encodeEntries, lookupRes, entriesLookup]
    split
    · rfl
    · apply lookupRes_encodeEntries rest k
      simp only [Entries.toList, List.map_cons, List.mem_cons] at hk
      rcases hk with h | h
      · simp_all
      · exact h

/-- A key of an object pairs with its looked-up value as an entry. -/
theorem entriesLookup_mem :
    (e : Entries) → (k : Str) → k ∈ e.toList.map Prod.fst →
      (k, entriesLookup e k) ∈ e.toList
  | .nil, k, hk => by simp [Entries.toList] at hk
  | .cons k2 v rest, k, hk => by
    by_cases h : k2 = k
    · subst h
      simp [Entries.toList, entriesLookup]
    · have hk2 : k ∈ rest.toList.map Prod.fst := by
        simp only [Entries.toList, List.map_cons, List.mem_cons] at hk
        rcases hk with hh | hh
        · exact absurd hh.symm h
        · exact hh
      simp only [Entries.toList, List.mem_cons, entriesLookup, if_neg h]
      exact Or.inr (entriesLookup_mem rest k hk2)

/-- When every key's lookup succeeds, the pair-building loop succeeds and
produces, in key order, the `key = value` fragments. -/
theorem collectPairs_ok (em : List (Str × Except EncError Str)) :
    ∀ ks, (∀ k ∈ ks, ∃ s, lookupRes em k = Except.ok s) →
      ∃ pairs, collectPairs em ks = .ok pairs ∧
        List.Forall₂ (fun k pr => ∃ s, lookupRes em k = .ok s ∧
          pr = escapeString k dquote ++ eqSep ++ s) ks pairs := by
  intro ks
  induction ks with
  | nil => intro _; exact ⟨[], rfl, List.Forall₂.nil⟩
  | cons k ks ih =>
    intro hok
    obtain ⟨s, hs⟩ := hok k (by simp)
    obtain ⟨pairs, hps, hfa⟩ := ih fun k2 hk2 => hok k2 (by simp [hk2])
    refine ⟨(escapeString k dquote ++ eqSep ++ s) :: pairs, ?_, ?_⟩
    · simp only [collectPairs, hs, hps]
    · exact List.Forall₂.cons ⟨s, hs, rfl⟩ hfa

/-- `convertMap` turns a string map into an object whose per-entry
encoding results are exactly the escaped string values. -/
theorem encodeEntries_convertMap :
    (m : List (Str × Str)) → encodeEntries (convertMap m) = strMapEntries m
  | [] => rfl
  | kv :: rest => by
    simp [convertMap, encodeEntries, strMapEntries, escapeValue,
      encodeEntries_convertMap rest]

/-- Faithfulness bridge for the `map[string]string` case: the model's
string-map branch equals Go's `escapeObject(convertMap(t))` composition. -/
theorem escapeValue_strMap_eq (m : List (Str × Str)) :
    escapeValue (GoValue.strMap m) = escapeObject (convertMap m) := by
  simp [escapeValue, escapeObject, encodeEntries_convertMap]

/-- The object branch of the encoder is Go's `escapeObject`. -/
theorem escapeValue_objMap_eq (e : Entries) :
    escapeValue (GoValue.objMap e) = escapeObject e := rfl

/-- Successful column escaping preserves the number of columns. -/
theorem escapeCols_ok_length :
    ∀ {cs : List GoValue} {out : List Str}, escapeCols cs = .ok out →
      out.length = cs.length := by
  intro cs
  induction cs with
  | nil => intro out h; simp only [escapeCols] at h; cases h; rfl
  | cons c cs ih =>
    intro out h
    simp only [escapeCols] at h
    cases h1 : escapeValue c with
    | error e => rw [h1] at h; cases h
    | ok s =>
      rw [h1] at h
      cases h2 : escapeCols cs with
      | error e => rw [h2] at h; cases h
      | ok rest =>
        rw [h2] at h
        cases h
        simp [ih h2]

/-- If any column fails to encode, the column loop aborts with the error
of some failing column. -/
theorem escapeCols_error_of_mem :
    ∀ {cs : List GoValue} {c : GoValue} {e : EncError}, c ∈ cs →
      escapeValue c = .error e →
      ∃ e2, escapeCols cs = .error e2 ∧ ∃ c2 ∈ cs, escapeValue c2 = .error e2 := by
  intro cs
  induction cs with
  | nil => intro c e hc _; cases hc
  | cons d cs ih =>
    intro c e hc he
    cases h1 : escapeValue d with
    | error e0 =>
      exact ⟨e0, by simp only [escapeCols, h1], d, by simp, h1⟩
    | ok s =>
      have hc2 : c ∈ cs := by
        rcases List.mem_cons.mp hc with h | h
        · subst h; rw [he] at h1; cases h1
        · exact h
      obtain ⟨e2, hrec, c2, hc3, he2⟩ := ih hc2 he
      exact ⟨e2, by simp only [escapeCols, h1, hrec], c2, by simp [hc3], he2⟩

/-- An error from the column loop is the error of one of the columns. -/
theorem escapeCols_error_mem :
    ∀ {cs : List GoValue} {e : EncError}, escapeCols cs = .error e →
      ∃ c ∈ cs, escapeValue c = .error e := by
  intro cs
  induction cs with
  | nil => intro e h; cases h
  | cons d cs ih =>
    intro e h
    simp only [escapeCols] at h
    cases h1 : escapeValue d with
    | error e0 =>
      rw [h1] at h
      cases h
      exact ⟨d, by simp, h1⟩
    | ok s =>
      rw [h1] at h
      cases h2 : escapeCols cs with
      | error e1 =>
        rw [h2] at h
        cases h
        obtain ⟨c, hc, he⟩ := ih h2
        exact ⟨c, by simp [hc], he⟩
      | ok rest => rw [h2] at h; cases h

/-- If any metric's columns fail to encode, the row loop aborts with the
error of some metric whose columns fail. -/
theorem metricRows_error_of_mem (loc : Int) :
    ∀ {metrics : List Metric} {m : Metric} {e : EncError}, m ∈ metrics →
      escapeCols (metricCols loc m) = .error e →
      ∃ e2, metricRows loc metrics = .error e2 ∧
        ∃ m2 ∈ metrics, escapeCols (metricCols loc m2) = .error e2 := by
  intro metrics
  induction metrics with
  | nil => intro m e hm _; cases hm
  | cons m0 ms ih =>
    intro m e hm he
    cases h1 : escapeCols (metricCols loc m0) with
    | error e0 =>
      exact ⟨e0, by simp only [metricRows, h1], m0, by simp, h1⟩
    | ok cs =>
      have hm2 : m ∈ ms := by
        rcases List.mem_cons.mp hm with h | h
        · subst h; rw [he] at h1; cases h1
        · exact h
      obtain ⟨e2, hrec, m2, hm3, he2⟩ := ih hm2 he
      exact ⟨e2, by simp only [metricRows, h1, hrec], m2, by simp [hm3], he2⟩

/-- An error from the row loop is the error of some metric's columns. -/
theorem metricRows_error_mem (loc : Int) :
    ∀ {metrics : List Metric} {e : EncError}, metricRows loc metrics = .error e →
      ∃ m ∈ metrics, escapeCols (metricCols loc m) = .error e := by
  intro metrics
  induction metrics with
  | nil => intro e h; cases h
  | cons m0 ms ih =>
    intro e h
    simp only [metricRows] at h
    cases h1 : escapeCols (metricCols loc m0) with
    | error e0 =>
      rw [h1] at h
      cases h
      exact ⟨m0, by simp, h1⟩
    | ok cs =>
      rw [h1] at h
      cases h2 : metricRows loc ms with
      | error e1 =>
        rw [h2] at h
        cases h
        obtain ⟨m, hm, he⟩ := ih h2
        exact ⟨m, by simp [hm], he⟩
      | ok rest => rw [h2] at h; cases h

/-- When every metric's columns encode, the row loop succeeds and builds
one parenthesized five-field tuple per metric, in order. -/
theorem metricRows_ok_of_all (loc : Int) :
    ∀ {metrics : List Metric},
      (∀ m ∈ metrics, ∃ cs, escapeCols (metricCols loc m) = .ok cs) →
      ∃ rows, metricRows loc metrics = .ok rows ∧
        List.Forall₂ (fun m r => ∃ cs, escapeCols (metricCols loc m) = .ok cs ∧
          cs.length = 5 ∧ r = '(' :: joinSep commaSp cs ++ [')']) metrics rows := by
  intro metrics
  induction metrics with
  | nil => intro _; exact ⟨[], rfl, List.Forall₂.nil⟩
  | cons m0 ms ih =>
    intro hok
    obtain ⟨cs, hcs⟩ := hok m0 (by simp)
    obtain ⟨rows, hrows, hfa⟩ := ih fun m hm => hok m (by simp [hm])
    refine ⟨('(' :: joinSep commaSp cs ++ [')']) :: rows, ?_, ?_⟩
    · simp only [metricRows, hcs, hrows]
    · exact List.Forall₂.cons ⟨cs, hcs, escapeCols_ok_length hcs, rfl⟩ hfa

/-- C6: encoding a text value wraps it in single quotes, doubles every
embedded single quote and alters no other character (the body is the
pointwise image of the input), and collapsing the doubled quotes in the
body recovers exactly the original text. -/
theorem escapeValue_str_roundtrip (s : Str) :
    ∃ body, escapeValue (GoValue.str s) = .ok (squote :: body ++ [squote]) ∧
      body = s.flatMap (fun c => if c = squote then [squote, squote] else [c]) ∧
      collapseDoubled squote body = s :=
  ⟨doubleQuoteChar squote s, rfl, doubleQuoteChar_eq_bind squote s,
    collapseDoubled_doubleQuoteChar squote s⟩

/-- A metric with empty tag and field maps, used to check that the empty
maps still occupy their positions in the row tuple. -/
def mTagless : Metric := ⟨7, 0, ("cpu").toList, [], Entries.nil⟩

/-- C10: encoding an empty object (empty fields map) and an empty string
map (empty tags map) succeeds and produces exactly the two-character
brace pair; for a metric with empty maps, the row tuple still has five
encoded columns with the brace pair in the tags and fields positions. -/
theorem escapeObject_empty :
    escapeValue (GoValue.objMap Entries.nil) = .ok [lbrace, rbrace] ∧
    escapeValue (GoValue.strMap []) = .ok [lbrace, rbrace] ∧
    (escapeCols (metricCols 0 mTagless)).map
        (fun cs => (cs.length, cs[3]?, cs[4]?)) =
      .ok (5, some [lbrace, rbrace], some [lbrace, rbrace]) :=
  ⟨rfl, rfl, rfl⟩

/-- C2 counterexample: on an empty batch `insertSQL` does not fail; it
returns success with a statement whose VALUES clause has zero tuples. -/
theorem insertSQL_empty_counterexample :
    insertSQL ("metrics").toList [] 0 =
      .ok (("INSERT INTO metrics (\"hash_id\", \"timestamp\", \"name\", \"tags\", \"fields\")\nVALUES\n;").toList) :=
  rfl

/-- C2 amended: `insertSQL` performs no emptiness check: for every table
and location, an empty metrics slice yields no error and the full header
followed directly by the terminating semicolon (an INSERT statement with
zero value tuples). -/
theorem insertSQL_empty_ok (table : Str) (loc : Int) :
    insertSQL table [] loc =
      .ok (("INSERT INTO ").toList ++ table
        ++ (" (\"hash_id\", \"timestamp\", \"name\", \"tags\", \"fields\")\nVALUES\n").toList
        ++ (";").toList) := by
  simp [insertSQL, metricRows, joinSep]

/-- C8 counterexample: a `uint64` value reaching `escapeValue` is not
rendered at all (and in particular is not bit-reinterpreted): it falls
into the default case and yields the unsupported-type error with the
`uint64` type tag. -/
theorem escapeValue_uint_counterexample :
    escapeValue (GoValue.uint UWidth.u64 14305102049502225714) =
      .error (.unsupportedType ("uint64").toList) :=
  rfl

/-- The non-digit characters that can occur in a rendered number: the
signs, the decimal point, the exponent marker and the letters of the
special values. Neither a comma nor a space nor any grouping character
is among them. -/
def floatSyms : Str := ['-', '+', '.', 'e', 'N', 'a', 'n', 'I', 'f']

/-- Every character of the exponent-form assembly is a digit or one of
the number symbol characters. -/
theorem fmtE_chars {digits : Str} {exp : Int}
    (hd : ∀ c ∈ digits, c.isDigit = true) :
    ∀ c ∈ fmtE digits exp, c.isDigit = true ∨ c ∈ floatSyms := by
  intro c hc
  unfold fmtE at hc
  rcases List.mem_append.mp hc with h | h
  · rcases List.mem_append.mp h with h2 | h2
    · exact Or.inl (hd c (List.take_subset _ _ h2))
    · split at h2
      · cases h2
      · rcases List.mem_cons.mp h2 with rfl | h3
        · right; simp [floatSyms]
        · exact Or.inl (hd c (List.drop_subset _ _ h3))
  · rcases List.mem_cons.mp h with rfl | h2
    · right; simp [floatSyms]
    rcases List.mem_cons.mp h2 with rfl | h3
    · right
      split <;> simp [floatSyms]
    · exact Or.inl (leftPad_digits (fun _ hm => natChars_digits hm) c h3)

/-- Every character of the fixed-form assembly is a digit or one of the
number symbol characters. -/
theorem fmtF_chars {digits : Str} {dp : Int}
    (hd : ∀ c ∈ digits, c.isDigit = true) :
    ∀ c ∈ fmtF digits dp, c.isDigit = true ∨ c ∈ floatSyms := by
  intro c hc
  unfold fmtF at hc
  split at hc
  · rcases List.mem_cons.mp hc with rfl | h
    · exact Or.inl (by decide)
    rcases List.mem_cons.mp h with rfl | h2
    · right; simp [floatSyms]
    rcases List.mem_append.mp h2 with h3 | h3
    · exact Or.inl (by rw [List.eq_of_mem_replicate h3]; decide)
    · exact Or.inl (hd c h3)
  · split at hc
    · rcases List.mem_append.mp hc with h | h
      · exact Or.inl (hd c h)
      · exact Or.inl (by rw [List.eq_of_mem_replicate h]; decide)
    · rcases List.mem_append.mp hc with h | h
      · exact Or.inl (hd c (List.take_subset _ _ h))
      · rcases List.mem_cons.mp h with rfl | h2
        · right; simp [floatSyms]
        · exact Or.inl (hd c (List.drop_subset _ _ h2))

/-- Every character of the presentation-choice result is a digit or one
of the number symbol characters. -/
theorem gFmt_chars (d : Nat) (dp : Int) :
    ∀ c ∈ gFmt d dp, c.isDigit = true ∨ c ∈ floatSyms := by
  intro c hc
  unfold gFmt at hc
  split at hc
  · exact fmtE_chars (fun _ h => natChars_digits h) c hc
  · exact fmtF_chars (fun _ h => natChars_digits h) c hc

/-- Every character of a rendered floating-point value is a digit or one
of the number symbol characters: there is no locale formatting and no
thousands grouping. -/
theorem goFloatChars_chars (w : FWidth) (f : GoFloat) :
    ∀ c ∈ goFloatChars w f, c.isDigit = true ∨ c ∈ floatSyms := by
  intro c hc
  cases f with
  | nan =>
    exact (by decide : ∀ x ∈ ("NaN").toList, x.isDigit = true ∨ x ∈ floatSyms) c hc
  | inf neg =>
    cases neg with
    | false =>
      exact (by decide : ∀ x ∈ ("+Inf").toList, x.isDigit = true ∨ x ∈ floatSyms) c hc
    | true =>
      exact (by decide : ∀ x ∈ ("-Inf").toList, x.isDigit = true ∨ x ∈ floatSyms) c hc
  | finite neg m e =>
    simp only [goFloatChars] at hc
    split at hc
    · cases neg with
      | false => exact (by decide : ∀ x ∈ [digitChar 0], x.isDigit = true ∨ x ∈ floatSyms) c hc
      | true =>
        rcases List.mem_cons.mp hc with rfl | h
        · right; simp [floatSyms]
        · exact (by decide : ∀ x ∈ [digitChar 0], x.isDigit = true ∨ x ∈ floatSyms) c h
    · cases neg with
      | false => exact gFmt_chars _ _ c hc
      | true =>
        rcases List.mem_cons.mp hc with rfl | h
        · right; simp [floatSyms]
        · exact gFmt_chars _ _ c h

set_option maxRecDepth 2000 in
/-- C8 amended: signed integer values are rendered by `escapeValue` as
their plain minimal decimal text (digits with an optional leading minus
sign), and floating-point values of both widths are rendered
successfully as Go's shortest round-tripping decimal in the `%g`
presentation, built only from digits and number symbols (no locale
formatting, no thousands separators) — on the specification scenario's
field value, the exact binary64 number `5981343255101440 * 2 ^ (-47)`,
the literal is `42.5`; unsigned integer values of any width, however,
are not handled by the type switch and produce the unsupported-type
error with their type tag; the uint64-to-int64 bit reinterpretation of
the identity hash happens in `insertSQL` before the encoder is called,
not inside the encoder. -/
theorem escapeValue_numeric (n : Int) (w : UWidth) (u : Nat)
    (fw : FWidth) (f : GoFloat) :
    escapeValue (GoValue.int n) = .ok (intChars n) ∧
    (∀ c ∈ intChars n, c.isDigit = true ∨ c = '-') ∧
    escapeValue (GoValue.float fw f) = .ok (goFloatChars fw f) ∧
    (∀ c ∈ goFloatChars fw f, c.isDigit = true ∨ c ∈ floatSyms) ∧
    goFloatChars FWidth.f64 (GoFloat.finite false 5981343255101440 (-47)) =
      ("42.5").toList ∧
    escapeValue (GoValue.uint w u) = .error (.unsupportedType (uintTag w)) := by
  refine ⟨rfl, ?_, rfl, goFloatChars_chars fw f, rfl, rfl⟩
  intro c hc
  simp only [intChars] at hc
  split at hc
  · rcases List.mem_cons.mp hc with h | h
    · exact Or.inr h
    · exact Or.inl (natChars_digits h)
  · exact Or.inl (natChars_digits hc)

/-- Witness for the amended C8 statement at concrete inputs (the float
is the binary64 value of the specification scenario's `42.5`). -/
theorem escapeValue_numeric_witness :
    escapeValue (GoValue.int (-42)) = .ok (intChars (-42)) ∧
    (∀ c ∈ intChars (-42), c.isDigit = true ∨ c = '-') ∧
    escapeValue (GoValue.float FWidth.f64 (GoFloat.finite false 5981343255101440 (-47))) =
      .ok (goFloatChars FWidth.f64 (GoFloat.finite false 5981343255101440 (-47))) ∧
    (∀ c ∈ goFloatChars FWidth.f64 (GoFloat.finite false 5981343255101440 (-47)),
      c.isDigit = true ∨ c ∈ floatSyms) ∧
    goFloatChars FWidth.f64 (GoFloat.finite false 5981343255101440 (-47)) =
      ("42.5").toList ∧
    escapeValue (GoValue.uint UWidth.u64 99) =
      .error (.unsupportedType (uintTag UWidth.u64)) :=
  escapeValue_numeric (-42) UWidth.u64 99 FWidth.f64
    (GoFloat.finite false 5981343255101440 (-47))

/-- C9: a timestamp value is encoded exactly like the text produced by
formatting it with the CrateDB layout, hence ends up single-quoted with
no internal escaping; within one `insertSQL` build every metric's
timestamp column carries the one location passed to `insertSQL`; and on
the specification's concrete instant the layout renders
year-month-day, `T`, clock, millisecond fraction and signed four-digit
zone offset without a colon. -/
theorem escapeValue_time_format (t : GoTime) (loc : Int) (m : Metric) :
    escapeValue (GoValue.time t) = escapeValue (GoValue.str (formatGoTime t)) ∧
    escapeValue (GoValue.time t) = .ok (squote :: formatGoTime t ++ [squote]) ∧
    (metricCols loc m)[1]? = some (GoValue.time ⟨m.time, loc⟩) ∧
    formatGoTime ⟨1672628645678000000, 0⟩ = ("2023-01-02T03:04:05.678+0000").toList := by
  refine ⟨rfl, ?_, rfl, rfl⟩
  have hnq : ∀ c ∈ formatGoTime t, c ≠ squote := fun c hc heq =>
    squote_not_mem_formatGoTime t (by rw [← heq]; exact hc)
  show Except.ok (escapeString (formatGoTime t) squote) = _
  rw [escapeString_of_no_quote hnq]

/-- A metric whose identity hash exceeds the signed 64-bit range, from
the specification's concrete scenario. -/
def mHash : Metric := ⟨14305102049502225714, 0, ("cpu").toList, [], Entries.nil⟩

/-- C1: for an identity hash at or above two to the sixty-third power,
the hash column value `insertSQL` builds is the signed two's-complement
reinterpretation: a negative integer in the signed 64-bit range congruent
to the hash modulo two to the sixty-fourth power, whose literal is a
minus sign followed by digits and in particular differs from the
unsigned decimal representation (no clamping, no unsigned rendering). -/
theorem insertSQL_hash_signed (loc : Int) (m : Metric)
    (h1 : 2 ^ 63 ≤ m.hashID) (h2 : m.hashID < 2 ^ 64) :
    ∃ s : Int, s < 0 ∧ -(2 ^ 63) ≤ s ∧
      s % (2 ^ 64) = (m.hashID : Int) % (2 ^ 64) ∧
      (metricCols loc m).head? = some (GoValue.int s) ∧
      escapeValue (GoValue.int s) = .ok ('-' :: natChars (2 ^ 64 - m.hashID)) ∧
      '-' :: natChars (2 ^ 64 - m.hashID) ≠ natChars m.hashID := by
  have hu : u64ToI64 m.hashID = (m.hashID : Int) - 2 ^ 64 := by
    rw [u64ToI64, if_neg (by omega)]
  have hcast : (2 : Int) ^ 63 ≤ (m.hashID : Int) := by exact_mod_cast h1
  have hcast2 : (m.hashID : Int) < 2 ^ 64 := by exact_mod_cast h2
  refine ⟨u64ToI64 m.hashID, ?_, ?_, ?_, rfl, ?_, ?_⟩
  · rw [hu]; omega
  · rw [hu]; omega
  · rw [hu]; omega
  · show Except.ok (intChars (u64ToI64 m.hashID)) = _
    rw [hu, intChars, if_pos (by omega)]
    have hto : (-((m.hashID : Int) - 2 ^ 64)).toNat = 2 ^ 64 - m.hashID := by omega
    rw [hto]
  · intro heq
    have hmem : '-' ∈ natChars m.hashID := heq ▸ List.mem_cons_self _ _
    exact absurd (natChars_digits hmem) (by decide)

/-- Witness for C1 at the specification's concrete oversized hash. -/
theorem insertSQL_hash_signed_witness :
    ∃ s : Int, s < 0 ∧ -(2 ^ 63) ≤ s ∧
      s % (2 ^ 64) = (mHash.hashID : Int) % (2 ^ 64) ∧
      (metricCols 0 mHash).head? = some (GoValue.int s) ∧
      escapeValue (GoValue.int s) = .ok ('-' :: natChars (2 ^ 64 - mHash.hashID)) ∧
      '-' :: natChars (2 ^ 64 - mHash.hashID) ≠ natChars mHash.hashID :=
  insertSQL_hash_signed 0 mHash (by decide) (by decide)

/-- A metric whose fields map holds a value of an unsupported type (a Go
string slice, carrying its `%T` tag). -/
def mBad : Metric :=
  ⟨1, 0, ("cpu").toList, [], Entries.cons ("blob").toList
    (GoValue.other ("[]string").toList) Entries.nil⟩

/-- C3: if any column value of any record in the batch fails to encode,
`insertSQL` aborts the whole statement build: it returns an
unsupported-type error whose tag comes from an offending column value of
the batch, and it returns no statement text at all. -/
theorem insertSQL_abort_on_error (table : Str) (loc : Int) (metrics : List Metric)
    (m : Metric) (hm : m ∈ metrics) (c : GoValue) (hc : c ∈ metricCols loc m)
    (e : EncError) (he : escapeValue c = .error e) :
    (∃ tag, insertSQL table metrics loc = .error (.unsupportedType tag) ∧
        ∃ m2 ∈ metrics, ∃ c2 ∈ metricCols loc m2,
          escapeValue c2 = .error (.unsupportedType tag)) ∧
    ∀ out, insertSQL table metrics loc ≠ .ok out := by
  obtain ⟨e2, hcols, c2, hc2, he2⟩ := escapeCols_error_of_mem hc he
  obtain ⟨e3, hrows, m2, hm2, he3⟩ := metricRows_error_of_mem loc hm hcols
  obtain ⟨c3, hc3, he4⟩ := escapeCols_error_mem he3
  cases e3 with
  | unsupportedType tag =>
    constructor
    · exact ⟨tag, by simp [insertSQL, hrows], m2, hm2, c3, hc3, he4⟩
    · intro out hout
      simp [insertSQL, hrows] at hout

/-- Witness for C3: a batch with one metric whose fields map holds an
unsupported value causes the abort. -/
theorem insertSQL_abort_on_error_witness :
    (∃ tag, insertSQL ("metrics").toList [mBad] 0 = .error (.unsupportedType tag) ∧
        ∃ m2 ∈ [mBad], ∃ c2 ∈ metricCols 0 m2,
          escapeValue c2 = .error (.unsupportedType tag)) ∧
    ∀ out, insertSQL ("metrics").toList [mBad] 0 ≠ .ok out :=
  insertSQL_abort_on_error ("metrics").toList 0 [mBad] mBad (by simp)
    (GoValue.objMap mBad.fields) (by simp [metricCols])
    (.unsupportedType ("[]string").toList) rfl

/-- First metric of the two-row format example. -/
def mA : Metric := ⟨1, 0, ("a").toList, [], Entries.nil⟩

/-- Second metric of the two-row format example. -/
def mB : Metric := ⟨2, 0, ("b").toList, [], Entries.nil⟩

/-- The statement the code actually builds for the two-row example:
newlines around `VALUES`, and tuples joined by space-comma-newline
(written with hexadecimal escapes for the quote and brace characters). -/
def c4Actual : Str :=
  ("INSERT INTO metrics (\"hash_id\", \"timestamp\", \"name\", \"tags\", \"fields\")\nVALUES\n(1, \x271970-01-01T00:00:00+0000\x27, \x27a\x27, \x7b\x7d, \x7b\x7d) ,\n(2, \x271970-01-01T00:00:00+0000\x27, \x27b\x27, \x7b\x7d, \x7b\x7d);").toList

/-- The statement claim C4 predicts for the same example: `VALUES` set
off by spaces and tuples joined by comma-newline. -/
def c4Claimed : Str :=
  ("INSERT INTO metrics (\"hash_id\", \"timestamp\", \"name\", \"tags\", \"fields\") VALUES (1, \x271970-01-01T00:00:00+0000\x27, \x27a\x27, \x7b\x7d, \x7b\x7d),\n(2, \x271970-01-01T00:00:00+0000\x27, \x27b\x27, \x7b\x7d, \x7b\x7d);").toList

/-- C4 counterexample: on a concrete two-metric batch the built statement
is `c4Actual`, which differs from the text predicted by the claim (the
code puts newlines around `VALUES` and joins tuples with
space-comma-newline, not comma-newline). -/
theorem insertSQL_format_counterexample :
    insertSQL ("metrics").toList [mA, mB] 0 = .ok c4Actual ∧ c4Actual ≠ c4Claimed :=
  ⟨rfl, by decide⟩

/-- C4 amended: on a non-empty batch whose records all encode, the
statement is the header `INSERT INTO <table> ("hash_id", "timestamp",
"name", "tags", "fields")`, a newline, `VALUES`, a newline, then exactly
one parenthesized tuple per metric (in order, each holding the five
encoded columns joined by comma-space), the tuples joined by
space-comma-newline, and a final semicolon. -/
theorem insertSQL_format (table : Str) (loc : Int) (metrics : List Metric)
    (hne : metrics ≠ [])
    (hok : ∀ m ∈ metrics, ∃ cs, escapeCols (metricCols loc m) = .ok cs) :
    ∃ rows, metricRows loc metrics = .ok rows ∧ rows.length = metrics.length ∧
      List.Forall₂ (fun m r => ∃ cs, escapeCols (metricCols loc m) = .ok cs ∧
        cs.length = 5 ∧ r = '(' :: joinSep commaSp cs ++ [')']) metrics rows ∧
      insertSQL table metrics loc = .ok (("INSERT INTO ").toList ++ table
        ++ (" (\"hash_id\", \"timestamp\", \"name\", \"tags\", \"fields\")\nVALUES\n").toList
        ++ joinSep rowSep rows ++ (";").toList) := by
  obtain ⟨rows, hrows, hfa⟩ := metricRows_ok_of_all loc hok
  exact ⟨rows, hrows, hfa.length_eq.symm, hfa, by simp [insertSQL, hrows]⟩

/-- Witness for the amended C4 statement on the two-metric example. -/
theorem insertSQL_format_witness :
    ∃ rows, metricRows 0 [mA, mB] = .ok rows ∧ rows.length = [mA, mB].length ∧
      List.Forall₂ (fun m r => ∃ cs, escapeCols (metricCols 0 m) = .ok cs ∧
        cs.length = 5 ∧ r = '(' :: joinSep commaSp cs ++ [')']) [mA, mB] rows ∧
      insertSQL ("metrics").toList [mA, mB] 0 = .ok (("INSERT INTO ").toList
        ++ ("metrics").toList
        ++ (" (\"hash_id\", \"timestamp\", \"name\", \"tags\", \"fields\")\nVALUES\n").toList
        ++ joinSep rowSep rows ++ (";").toList) :=
  insertSQL_format ("metrics").toList 0 [mA, mB] (by simp)
    (by
      intro m hm
      rcases List.mem_cons.mp hm with rfl | hm2
      · exact ⟨_, rfl⟩
      · rcases List.mem_cons.mp hm2 with rfl | hm3
        · exact ⟨_, rfl⟩
        · cases hm3)

/-- C5: the object encoder is order-independent: two objects with the
same key-value content (a permutation of one another, unique keys)
encode to byte-identical output, because the keys are sorted before the
pairs are rendered. -/
theorem escapeObject_order_independent (e1 e2 : Entries)
    (hperm : e1.toList.Perm e2.toList)
    (hnd : (e1.toList.map Prod.fst).Nodup) :
    escapeObject e1 = escapeObject e2 := by
  have hem : (encodeEntries e1).Perm (encodeEntries e2) := by
    rw [encodeEntries_eq_map, encodeEntries_eq_map]
    exact hperm.map _
  have hnd1 : ((encodeEntries e1).map Prod.fst).Nodup := by
    rw [keys_encodeEntries]; exact hnd
  have hsort : sortStrings ((encodeEntries e1).map Prod.fst) =
      sortStrings ((encodeEntries e2).map Prod.fst) :=
    sortStrings_eq_of_perm (hem.map _)
  have hcp := collectPairs_congr (fun k => lookupRes_perm k hem hnd1)
  show assembleObject (encodeEntries e1) = assembleObject (encodeEntries e2)
  simp only [assembleObject, hsort, hcp]

/-- Two-entry object, keys out of order. -/
def ew1 : Entries :=
  Entries.cons ("b").toList (GoValue.int 2)
    (Entries.cons ("a").toList (GoValue.int 1) Entries.nil)

/-- The same content as `ew1` in the opposite iteration order. -/
def ew2 : Entries :=
  Entries.cons ("a").toList (GoValue.int 1)
    (Entries.cons ("b").toList (GoValue.int 2) Entries.nil)

/-- Witness for C5 on a concrete two-key object and its transposition. -/
theorem escapeObject_order_independent_witness :
    escapeObject ew1 = escapeObject ew2 :=
  escapeObject_order_independent ew1 ew2
    (List.Perm.swap _ _ _) (by decide)

/-- Strengthens a pointwise implication over paired lists to one that may
use membership of the left element. -/
theorem forall₂_imp_of_mem {α β : Type} {P Q : α → β → Prop} :
    ∀ {l1 : List α} {l2 : List β}, List.Forall₂ P l1 l2 →
      (∀ a ∈ l1, ∀ b, P a b → Q a b) → List.Forall₂ Q l1 l2 := by
  intro l1 l2 h
  induction h with
  | nil => intro _; exact List.Forall₂.nil
  | cons hab htail ih =>
    intro himp
    exact List.Forall₂.cons (himp _ (by simp) _ hab)
      (ih fun a ha b hb => himp a (by simp [ha]) b hb)

/-- C7: when all values of an object encode, `escapeObject` produces an
open brace, the comma-space-joined `key = value` pairs, and a close
brace, where the keys are enumerated in ascending lexicographic order (a
sorted permutation of the object's keys), each key is double-quote
wrapped by `escapeString`, and each value is the recursive encoding of
the entry looked up at that key. Applied to a nested object value, the
same statement characterizes the inner braces, so keys are sorted at
every nesting level independently. -/
theorem escapeObject_sorted_shape (e : Entries)
    (hok : ∀ p ∈ e.toList, ∃ s, escapeValue p.2 = Except.ok s) :
    ∃ ks pairs,
      ks = sortStrings (e.toList.map Prod.fst) ∧
      List.Sorted strLeP ks ∧
      ks.Perm (e.toList.map Prod.fst) ∧
      List.Forall₂ (fun k pr => ∃ s, escapeValue (entriesLookup e k) = Except.ok s ∧
        pr = escapeString k dquote ++ eqSep ++ s) ks pairs ∧
      escapeObject e = Except.ok (lbrace :: joinSep commaSp pairs ++ [rbrace]) := by
  have hks : ∀ k ∈ sortStrings (e.toList.map Prod.fst), k ∈ e.toList.map Prod.fst :=
    fun k hk => (sortStrings_perm _).mem_iff.mp hk
  have hlook : ∀ k ∈ sortStrings (e.toList.map Prod.fst),
      ∃ s, lookupRes (encodeEntries e) k = Except.ok s := by
    intro k hk
    rw [lookupRes_encodeEntries e k (hks k hk)]
    exact hok (k, entriesLookup e k) (entriesLookup_mem e k (hks k hk))
  obtain ⟨pairs, hcp, hfa⟩ := collectPairs_ok (encodeEntries e) _ hlook
  refine ⟨_, pairs, rfl, sortStrings_sorted _, sortStrings_perm _, ?_, ?_⟩
  · refine forall₂_imp_of_mem hfa ?_
    intro k hk pr hp
    obtain ⟨s, hs, hpr⟩ := hp
    rw [lookupRes_encodeEntries e k (hks k hk)] at hs
    exact ⟨s, hs, hpr⟩
  · show assembleObject (encodeEntries e) = _
    rw [assembleObject, keys_encodeEntries, hcp]

/-- A nested two-level object with keys out of order at both levels. -/
def ewNest : Entries :=
  Entries.cons ("b").toList
    (GoValue.objMap (Entries.cons ("d").toList (GoValue.int 1)
      (Entries.cons ("c").toList (GoValue.int 2) Entries.nil)))
    (Entries.cons ("a").toList (GoValue.str ("x").toList) Entries.nil)

/-- Witness for C7 on a concrete nested object whose values all encode. -/
theorem escapeObject_sorted_shape_witness :
    ∃ ks pairs,
      ks = sortStrings (ewNest.toList.map Prod.fst) ∧
      List.Sorted strLeP ks ∧
      ks.Perm (ewNest.toList.map Prod.fst) ∧
      List.Forall₂ (fun k pr => ∃ s, escapeValue (entriesLookup ewNest k) = Except.ok s ∧
        pr = escapeString k dquote ++ eqSep ++ s) ks pairs ∧
      escapeObject ewNest = Except.ok (lbrace :: joinSep commaSp pairs ++ [rbrace]) :=
  escapeObject_sorted_shape ewNest
    (by
      intro p hp
      simp only [ewNest, Entries.toList, List.mem_cons, List.not_mem_nil, or_false] at hp
      rcases hp with rfl | rfl
      · exact ⟨_, rfl⟩
      · exact ⟨_, rfl⟩)
